import Mathlib

/-!
Verification development for the CoEdit CRDT text-editor engine.

The CRDT core (Position / Timestamp / Operation / Document) of this
repository exists only as documentation; its Rust sources are not part of
the source tree available here, so every definition of that core below is
modelled from the specification text and marked as such.  The frontend
client handlers (App.vue) are embedded from the actual source.
-/

namespace Crdt

/-- Modelled from the spec: error kinds of the engine (section 7); the Rust
source defining the error enum is missing, only the spec describes it. -/
inductive ApplyError where
  | invalidPosition
  | serializationError
deriving DecidableEq

/-- Modelled from the spec: a Position is an ordered sequence of
non-negative path segments compared lexicographically (section 3); the
Rust file position.rs is missing from the sources. -/
abbrev Position := List Nat

/-- Modelled from the spec: the Start sentinel, the empty / minimal path. -/
def Position.start : Position := []

/-- Modelled from the spec: branching base bounding freshly allocated
segments (an implementation choice left open by the spec). -/
def branchBase : Nat := 65536

/-- Modelled from the spec: the End sentinel, the maximal path (named
endPos because `end` is reserved in Lean). -/
def Position.endPos : Position := [branchBase]

/-- Modelled from the spec: total order on Positions via lexicographic
segment comparison, a shorter prefix ordered before any extension
(section 4.1); position.rs is missing. -/
def Position.compare : Position → Position → Ordering
  | [], [] => Ordering.eq
  | [], _ :: _ => Ordering.lt
  | _ :: _, [] => Ordering.gt
  | x :: xs, y :: ys =>
    if x < y then Ordering.lt
    else if y < x then Ordering.gt
    else Position.compare xs ys

/-- Modelled from the spec: the recursive allocation core of
Position::between (section 4.1) — pick the midpoint where head segments
leave a gap, recurse where they agree, extend the shorter path otherwise;
position.rs is missing. -/
def betweenAux : List Nat → List Nat → Option (List Nat)
  | _, [] => none
  | [], y :: ys =>
    if 1 ≤ y then some [y / 2]
    else if ys = [] then none
    else some [0]
  | x :: xs, y :: ys =>
    if x = y then (betweenAux xs ys).map (fun t => x :: t)
    else if x < y then
      (if x + 2 ≤ y then some [(x + y) / 2] else some (x :: (xs ++ [0])))
    else none

/-- Modelled from the spec: Position::between requires a < b and fails
with InvalidPosition otherwise (sections 4.1 and 7); being a pure
function, a failing call trivially mutates nothing. -/
def Position.between (a b : Position) : Except ApplyError Position :=
  if Position.compare a b = Ordering.lt then
    match betweenAux a b with
    | some c => Except.ok c
    | none => Except.error ApplyError.invalidPosition
  else Except.error ApplyError.invalidPosition

/-- Modelled from the spec: a Lamport logical clock, pair of counter and
client id (section 3); timestamp.rs is missing from the sources. -/
structure Timestamp where
  counter : Nat
  client_id : String
deriving DecidableEq

/-- Modelled from the spec: Timestamp::new starts the counter at zero
(section 4.2). -/
def Timestamp.new (client_id : String) : Timestamp := ⟨0, client_id⟩

/-- Modelled from the spec: Timestamp::update, the Lamport merge on
receiving a remote timestamp — counter becomes max of both plus one
(section 4.2). -/
def Timestamp.update (t other : Timestamp) : Timestamp :=
  ⟨max t.counter other.counter + 1, t.client_id⟩

/-- Modelled from the spec: the closed Operation variant, Insert or
Delete, each carrying client id, Position and Timestamp (section 3);
document.rs is missing from the sources. -/
inductive Operation where
  | insert (client_id : String) (character : Char) (position : Position)
      (timestamp : Timestamp)
  | delete (client_id : String) (position : Position) (timestamp : Timestamp)
deriving DecidableEq

/-- The Position an Operation refers to. -/
def Operation.position : Operation → Position
  | .insert _ _ p _ => p
  | .delete _ p _ => p

/-- Whether an Operation is an Insert. -/
def Operation.isInsert : Operation → Bool
  | .insert _ _ _ _ => true
  | .delete _ _ _ => false

/-- The character carried by an Insert, none for a Delete. -/
def Operation.charOf : Operation → Option Char
  | .insert _ c _ _ => some c
  | .delete _ _ _ => none

/-- Modelled from the spec: a CharacterEntry of the Document store —
character, position, tombstone flag and timestamp (section 3). -/
structure CharacterEntry where
  character : Char
  position : Position
  deleted : Bool
  timestamp : Timestamp
deriving DecidableEq

/-- Modelled from the spec: the Document state — id, ordered character
store, append-only operation log, tombstone count, optional GC threshold
and local Lamport clock (section 3); document.rs is missing. -/
structure Document where
  id : String
  characters : List CharacterEntry
  operation_log : List Operation
  deleted_count : Nat
  gc_threshold : Option Nat
  timestamp : Timestamp
deriving DecidableEq

/-- Modelled from the spec: Document::new creates the empty document —
no entries, empty log, deleted_count 0, no automatic GC, clock at the
initial counter (section 3, lifecycle). -/
def Document.new (id : String) : Document :=
  ⟨id, [], [], 0, none, Timestamp.new id⟩

/-- Modelled from the spec: single-point sorted insertion at the index a
binary search by Position would return; on a sorted store this places the
entry before the first strictly greater position and reports a duplicate
when an entry with an identical Position exists (section 4.4, Insert). -/
def insertSorted (e : CharacterEntry) : List CharacterEntry → List CharacterEntry × Bool
  | [] => ([e], false)
  | x :: xs =>
    match Position.compare x.position e.position with
    | Ordering.lt =>
      let r := insertSorted e xs
      (x :: r.1, r.2)
    | Ordering.eq => (x :: xs, true)
    | Ordering.gt => (e :: x :: xs, false)

/-- Modelled from the spec: find the entry with the matching Position and
set deleted := true if it is live; reports whether an entry was actually
marked (section 4.4, Delete). -/
def markDeleted (p : Position) : List CharacterEntry → List CharacterEntry × Bool
  | [] => ([], false)
  | x :: xs =>
    if x.position = p then
      if x.deleted then (x :: xs, false)
      else ({ x with deleted := true } :: xs, true)
    else
      let r := markDeleted p xs
      (x :: r.1, r.2)

/-- The visible characters of a store: tombstones filtered out, in store
order. -/
def visibleChars (l : List CharacterEntry) : List Char :=
  (l.filter (fun e => !e.deleted)).map (fun e => e.character)

/-- Modelled from the spec: get_visible_text — the derived view of the
store with deleted entries filtered out, in Position order, never cached
(section 4.4). -/
def Document.get_visible_text (doc : Document) : List Char :=
  visibleChars doc.characters

/-- Modelled from the spec: collect_garbage removes all entries with
deleted = true preserving the relative order of survivors, resets
deleted_count to 0 and does not trim the operation log (section 4.4). -/
def Document.collect_garbage (doc : Document) : Document :=
  { doc with
    characters := doc.characters.filter (fun e => !e.deleted)
    deleted_count := 0 }

/-- Modelled from the spec: set_garbage_collection_threshold reconfigures
the automatic trigger; none disables it (section 4.4). -/
def Document.set_garbage_collection_threshold (doc : Document) (n : Option Nat) : Document :=
  { doc with gc_threshold := n }

/-- Modelled from the spec: Document::apply (section 4.4).  Insert:
duplicate Positions are a no-op success, otherwise single-point sorted
insertion, log append and Lamport merge.  Delete: mark the matching entry
if live, tolerated no-op if unknown, always log and merge; when a mark
raised deleted_count to the configured threshold, collect_garbage runs
before apply returns.  The result mirrors the Rust `Result<(), ApplyError>`
paired with the post state; in this model apply never fails. -/
def Document.apply (doc : Document) (op : Operation) : Except ApplyError Unit × Document :=
  match op with
  | Operation.insert _ c p ts =>
    let r := insertSorted ⟨c, p, false, ts⟩ doc.characters
    if r.2 then (Except.ok (), doc)
    else
      (Except.ok (),
        { doc with
          characters := r.1
          operation_log := doc.operation_log ++ [op]
          timestamp := Timestamp.update doc.timestamp ts })
  | Operation.delete _ p ts =>
    let r := markDeleted p doc.characters
    let base : Document :=
      { doc with
        characters := r.1
        deleted_count := if r.2 then doc.deleted_count + 1 else doc.deleted_count
        operation_log := doc.operation_log ++ [op]
        timestamp := Timestamp.update doc.timestamp ts }
    let triggered : Bool :=
      r.2 && (match doc.gc_threshold with
              | some n => decide (n ≤ base.deleted_count)
              | none => false)
    (Except.ok (), if triggered then base.collect_garbage else base)

/-- Apply a whole list of operations in order. -/
def applyOps (doc : Document) (l : List Operation) : Document :=
  l.foldl (fun d op => (Document.apply d op).2) doc

/-- Strict ascending order of two entries by Position. -/
def entLt (e1 e2 : CharacterEntry) : Prop :=
  Position.compare e1.position e2.position = Ordering.lt

instance : DecidableRel entLt := fun e1 e2 =>
  inferInstanceAs (Decidable (Position.compare e1.position e2.position = Ordering.lt))

/-- The sorted-store invariant: entries strictly ascending by Position. -/
def SortedChars (l : List CharacterEntry) : Prop :=
  l.Pairwise entLt

instance : DecidablePred SortedChars := fun l =>
  inferInstanceAs (Decidable (l.Pairwise entLt))

/-- First entry with the given Position, projected to character and
tombstone flag. -/
def lookupEntry : List CharacterEntry → Position → Option (Char × Bool)
  | [], _ => none
  | e :: es, p =>
    if e.position = p then some (e.character, e.deleted) else lookupEntry es p

/-- Projection of an entry to the data visible-text depends on. -/
def entView (e : CharacterEntry) : Position × Char × Bool :=
  (e.position, e.character, e.deleted)

/-- Abstract effect of one Operation on the store entry at its own
Position: an Insert fills an empty slot, a Delete tombstones a filled
one. -/
def stepAbs (v : Option (Char × Bool)) (op : Operation) : Option (Char × Bool) :=
  match op with
  | Operation.insert _ c _ _ =>
    match v with
    | none => some (c, false)
    | some w => some w
  | Operation.delete _ _ _ => v.map (fun w => (w.1, true))

/-- The operations of a list aimed at one Position, in order. -/
def opsAt (q : Position) (l : List Operation) : List Operation :=
  l.filter (fun o => Operation.position o == q)

/-- Any two Inserts of the list aimed at the same Position carry the same
character (concurrent allocations at one slot are the same fact). -/
def InsertsAgree (l : List Operation) : Prop :=
  ∀ o1 ∈ l, ∀ o2 ∈ l, o1.isInsert = true → o2.isInsert = true →
    Operation.position o1 = Operation.position o2 →
    Operation.charOf o1 = Operation.charOf o2

instance : DecidablePred InsertsAgree := fun l =>
  inferInstanceAs (Decidable (∀ o1 ∈ l, ∀ o2 ∈ l, _ → _ → _ → _))

/-- If the per-position slice contains an Insert at all, its first
element is an Insert (no Delete outruns the Insert it depends on). -/
def headInsOk (m : List Operation) : Prop :=
  match m with
  | [] => True
  | op :: rest => ((op :: rest).any (fun o => o.isInsert) = true) → op.isInsert = true

instance : ∀ m, Decidable (headInsOk m)
  | [] => Decidable.isTrue trivial
  | _ :: _ => inferInstanceAs (Decidable (_ → _))

/-- Causally ordered delivery: at every Position touched by the list, no
Delete precedes the first Insert of that Position. -/
def DeletesFollowInserts (l : List Operation) : Prop :=
  ∀ q ∈ l.map Operation.position, headInsOk (opsAt q l)

instance : DecidablePred DeletesFollowInserts := fun l =>
  inferInstanceAs (Decidable (∀ q ∈ l.map Operation.position, headInsOk (opsAt q l)))

/-- Document states reachable from the empty Document through the public
mutators. -/
inductive DocReachable : Document → Prop where
  | new (id : String) : DocReachable (Document.new id)
  | step {d : Document} (op : Operation) :
      DocReachable d → DocReachable (Document.apply d op).2
  | gcStep {d : Document} :
      DocReachable d → DocReachable d.collect_garbage
  | cfgStep {d : Document} (n : Option Nat) :
      DocReachable d → DocReachable (d.set_garbage_collection_threshold n)

/-- State of the frontend client in App.vue: connection flag, the
CodeMirror document, the messages sent over the socket, the pending
setTimeout reconnection delays in milliseconds, and whether a WebSocket
object exists whose close event has not fired yet. -/
structure ClientState where
  isConnected : Bool
  editorDoc : List Char
  outbox : List String
  reconnectDelays : List Nat
  socketAlive : Bool
deriving DecidableEq

/-- setupWebSocket (App.vue): creates a new WebSocket and installs the
onopen/onclose/onmessage handlers; the connection attempt is then in
flight. -/
def setupWebSocket (st : ClientState) : ClientState :=
  { st with socketAlive := true }

/-- ws.onopen handler (App.vue): sets isConnected := true. -/
def onopen (st : ClientState) : ClientState :=
  { st with isConnected := true }

/-- ws.onclose handler (App.vue): sets isConnected := false and schedules
exactly one setupWebSocket call after 1000 ms. -/
def onclose (st : ClientState) : ClientState :=
  { st with
    isConnected := false
    socketAlive := false
    reconnectDelays := st.reconnectDelays ++ [1000] }

/-- ws.onmessage handler (App.vue): binds JSON.parse(event.data) to an
unused local and does nothing else (the CRDT integration is a TODO stub),
so the state — in particular the editor document — is unchanged. -/
def onmessage (st : ClientState) (eventData : String) : ClientState :=
  st

/-- EditorView.updateListener callback (App.vue): when the document
changed and the socket is open it would send the change, but the body is
a TODO stub, so nothing is sent and the state is unchanged. -/
def onEditorUpdate (st : ClientState) (docChanged readyStateOpen : Bool) : ClientState :=
  if docChanged && readyStateOpen then st else st

/-- One step serves a pending browser event: an open or close event of a
live socket, or an elapsed reconnection timer firing setupWebSocket. -/
inductive ClientStep : ClientState → ClientState → Prop where
  | openEv {st : ClientState} : st.socketAlive = true → ClientStep st (onopen st)
  | closeEv {st : ClientState} : st.socketAlive = true → ClientStep st (onclose st)
  | fireEv {st : ClientState} : st.reconnectDelays ≠ [] →
      ClientStep st (setupWebSocket { st with reconnectDelays := st.reconnectDelays.tail })

/-- The client right after onMounted ran setupEditor and setupWebSocket. -/
def clientInit : ClientState :=
  setupWebSocket ⟨false, [], [], [], false⟩

/-- Client states reachable from the mounted component. -/
inductive ClientReachable : ClientState → Prop where
  | init : ClientReachable clientInit
  | step {s s' : ClientState} :
      ClientReachable s → ClientStep s s' → ClientReachable s'

theorem pos_compare_self (a : Position) : Position.compare a a = Ordering.eq := by
  induction a with
  | nil => rfl
  | cons x xs ih => simp [Position.compare, ih]

theorem pos_eq_of_compare_eq {a b : Position}
    (h : Position.compare a b = Ordering.eq) : a = b := by
  induction a generalizing b with
  | nil =>
    cases b with
    | nil => rfl
    | cons y ys => simp [Position.compare] at h
  | cons x xs ih =>
    cases b with
    | nil => simp [Position.compare] at h
    | cons y ys =>
      simp only [Position.compare] at h
      split at h
      · exact absurd h (by simp)
      · split at h
        · exact absurd h (by simp)
        · have hxy : x = y := by omega
          rw [hxy, ih h]

theorem pos_gt_iff_lt {a b : Position} :
    Position.compare a b = Ordering.gt ↔ Position.compare b a = Ordering.lt := by
  induction a generalizing b with
  | nil => cases b <;> simp [Position.compare]
  | cons x xs ih =>
    cases b with
    | nil => simp [Position.compare]
    | cons y ys =>
      rcases Nat.lt_trichotomy x y with h | h | h
      · simp [Position.compare, h, Nat.lt_asymm h]
      · subst h
        simpa [Position.compare, Nat.lt_irrefl] using ih
      · simp [Position.compare, h, Nat.lt_asymm h]

theorem pos_lt_trans {a b c : Position}
    (h1 : Position.compare a b = Ordering.lt)
    (h2 : Position.compare b c = Ordering.lt) :
    Position.compare a c = Ordering.lt := by
  induction a generalizing b c with
  | nil =>
    cases b with
    | nil => simp [Position.compare] at h1
    | cons y ys =>
      cases c with
      | nil => simp [Position.compare] at h2
      | cons z zs => simp [Position.compare]
  | cons x xs ih =>
    cases b with
    | nil => simp [Position.compare] at h1
    | cons y ys =>
      cases c with
      | nil => simp [Position.compare] at h2
      | cons z zs =>
        rcases Nat.lt_trichotomy x y with hxy | hxy | hxy
        · rcases Nat.lt_trichotomy y z with hyz | hyz | hyz
          · simp [Position.compare, show x < z by omega]
          · subst hyz
            simp [Position.compare, hxy]
          · simp [Position.compare, show ¬ y < z by omega, hyz] at h2
        · subst hxy
          rcases Nat.lt_trichotomy x z with hxz | hxz | hxz
          · simp [Position.compare, hxz]
          · subst hxz
            simp [Position.compare, Nat.lt_irrefl] at h1 h2 ⊢
            exact ih h1 h2
          · simp [Position.compare, show ¬ x < z by omega, hxz] at h2
        · simp [Position.compare, show ¬ x < y by omega, hxy] at h1

theorem pos_lt_ne {a b : Position}
    (h : Position.compare a b = Ordering.lt) : a ≠ b := by
  intro he
  subst he
  rw [pos_compare_self] at h
  exact Ordering.noConfusion h

theorem pos_lt_asymm {a b : Position}
    (h1 : Position.compare a b = Ordering.lt)
    (h2 : Position.compare b a = Ordering.lt) : False := by
  have hg := pos_gt_iff_lt.mpr h2
  rw [h1] at hg
  exact Ordering.noConfusion hg

theorem pos_lt_irrefl (a : Position) : Position.compare a a ≠ Ordering.lt := by
  rw [pos_compare_self]
  exact fun h => Ordering.noConfusion h

/-- A path is strictly below any proper extension of itself. -/
theorem pos_lt_append (l : Position) (z : Nat) (zs : List Nat) :
    Position.compare l (l ++ z :: zs) = Ordering.lt := by
  induction l with
  | nil => simp [Position.compare]
  | cons x xs ih => simpa [Position.compare, Nat.lt_irrefl] using ih

theorem betweenAux_some_lt {a b c : List Nat}
    (h : betweenAux a b = some c) :
    Position.compare a c = Ordering.lt ∧ Position.compare c b = Ordering.lt := by
  induction a generalizing b c with
  | nil =>
    cases b with
    | nil => simp [betweenAux] at h
    | cons y ys =>
      simp only [betweenAux] at h
      by_cases hy : 1 ≤ y
      · simp [hy] at h
        subst h
        refine ⟨by simp [Position.compare], ?_⟩
        have : y / 2 < y := Nat.div_lt_self (by omega) (by omega)
        simp [Position.compare, this]
      · simp [hy] at h
        have hy0 : y = 0 := by omega
        subst hy0
        by_cases hys : ys = []
        · simp [hys] at h
        · simp [hys] at h
          subst h
          refine ⟨by simp [Position.compare], ?_⟩
          cases ys with
          | nil => exact absurd rfl hys
          | cons w ws => simp [Position.compare]
  | cons x xs ih =>
    cases b with
    | nil => simp [betweenAux] at h
    | cons y ys =>
      simp only [betweenAux] at h
      by_cases hxy : x = y
      · subst hxy
        rw [if_pos rfl] at h
        cases hb : betweenAux xs ys with
        | none =>
          rw [hb] at h
          simp at h
        | some t =>
          rw [hb] at h
          simp at h
          obtain ⟨h1, h2⟩ := ih hb
          subst h
          constructor
          · simpa [Position.compare, Nat.lt_irrefl] using h1
          · simpa [Position.compare, Nat.lt_irrefl] using h2
      · simp only [if_neg hxy] at h
        by_cases hlt : x < y
        · simp only [if_pos hlt] at h
          by_cases hgap : x + 2 ≤ y
          · simp [hgap] at h
            subst h
            constructor
            · have : x < (x + y) / 2 := by omega
              simp [Position.compare, this]
            · have : (x + y) / 2 < y := by omega
              simp [Position.compare, this]
          · simp [hgap] at h
            subst h
            constructor
            · simpa [Position.compare, Nat.lt_irrefl] using pos_lt_append xs 0 []
            · simp [Position.compare, hlt]
        · simp [hlt] at h

theorem betweenAux_some_of_lt {a b : List Nat}
    (h : Position.compare a b = Ordering.lt) (hne : b ≠ a ++ [0]) :
    ∃ c, betweenAux a b = some c := by
  induction a generalizing b with
  | nil =>
    cases b with
    | nil => simp [Position.compare] at h
    | cons y ys =>
      simp only [betweenAux]
      by_cases hy : 1 ≤ y
      · exact ⟨[y / 2], by simp [hy]⟩
      · have hy0 : y = 0 := by omega
        subst hy0
        have hys : ys ≠ [] := by
          intro hnil
          exact hne (by simp [hnil])
        exact ⟨[0], by simp [hys]⟩
  | cons x xs ih =>
    cases b with
    | nil => simp [Position.compare] at h
    | cons y ys =>
      simp only [Position.compare] at h
      simp only [betweenAux]
      by_cases hlt : x < y
      · simp only [if_neg (by omega : ¬ x = y), if_pos hlt]
        by_cases hgap : x + 2 ≤ y
        · exact ⟨[(x + y) / 2], by simp [hgap]⟩
        · exact ⟨x :: (xs ++ [0]), by simp [hgap]⟩
      · simp only [if_neg hlt] at h
        by_cases hgt : y < x
        · simp [hgt] at h
        · rw [if_neg hgt] at h
          have hxy : x = y := by omega
          subst hxy
          simp only [if_pos rfl]
          have hne' : ys ≠ xs ++ [0] := by
            intro hx
            exact hne (by simp [hx])
          obtain ⟨t, ht⟩ := ih h hne'
          exact ⟨x :: t, by simp [ht]⟩

/-- No position lies strictly between a path and that path extended by a
single 0 segment: the one non-dense pair of the order. -/
theorem no_pos_between_append_zero {a : Position} :
    ∀ c, ¬(Position.compare a c = Ordering.lt ∧
           Position.compare c (a ++ [0]) = Ordering.lt) := by
  induction a with
  | nil =>
    intro c ⟨h1, h2⟩
    cases c with
    | nil => simp [Position.compare] at h1
    | cons z zs =>
      simp only [List.nil_append] at h2
      rcases Nat.eq_zero_or_pos z with hz | hz
      · subst hz
        simp [Position.compare, Nat.lt_irrefl] at h2
        cases zs with
        | nil => simp [Position.compare] at h2
        | cons w ws => simp [Position.compare] at h2
      · simp [Position.compare, show ¬ z < 0 by omega, hz] at h2
  | cons x xs ih =>
    intro c ⟨h1, h2⟩
    cases c with
    | nil => simp [Position.compare] at h1
    | cons z zs =>
      simp only [List.cons_append] at h2
      rcases Nat.lt_trichotomy x z with hxz | hxz | hxz
      · simp [Position.compare, show ¬ z < x by omega, hxz] at h2
      · subst hxz
        simp [Position.compare, Nat.lt_irrefl] at h1 h2
        exact ih zs ⟨h1, h2⟩
      · simp [Position.compare, show ¬ x < z by omega, hxz] at h1

/-- C3 (amended): for every pair of Positions a < b such that b is not a
extended by a single 0 segment, Position.between returns some c with
a < c < b; when b = a ++ [0] no position lies strictly between (so the
call fails with InvalidPosition, as it also does whenever a ≥ b).  The
amendment is forced: in the prefix-before-extension lexicographic order
the pair (a, a ++ [0]) has an empty open interval, so no implementation
of between could return a strictly intermediate position there. -/
theorem between_correct (a b : Position) :
    (Position.compare a b = Ordering.lt → b ≠ a ++ [0] →
      ∃ c, Position.between a b = Except.ok c ∧
        Position.compare a c = Ordering.lt ∧ Position.compare c b = Ordering.lt)
    ∧ (Position.compare a b ≠ Ordering.lt →
      Position.between a b = Except.error ApplyError.invalidPosition)
    ∧ (b = a ++ [0] →
      Position.between a b = Except.error ApplyError.invalidPosition ∧
      ∀ c, ¬(Position.compare a c = Ordering.lt ∧
             Position.compare c b = Ordering.lt)) := by
  refine ⟨?_, ?_, ?_⟩
  · intro hlt hne
    obtain ⟨c, hc⟩ := betweenAux_some_of_lt hlt hne
    obtain ⟨h1, h2⟩ := betweenAux_some_lt hc
    exact ⟨c, by simp [Position.between, hlt, hc], h1, h2⟩
  · intro hnlt
    simp [Position.between, hnlt]
  · intro hb
    subst hb
    constructor
    · by_cases hlt : Position.compare a (a ++ [0]) = Ordering.lt
      · simp only [Position.between, if_pos hlt]
        cases hc : betweenAux a (a ++ [0]) with
        | none => rfl
        | some c =>
          obtain ⟨h1, h2⟩ := betweenAux_some_lt hc
          exact absurd ⟨h1, h2⟩ (no_pos_between_append_zero c)
      · simp [Position.between, hlt]
    · exact no_pos_between_append_zero

/-- C3 counterexample: the Start sentinel and the path [0] satisfy
start < [0] under Position.compare, yet between fails with
InvalidPosition instead of returning a strictly intermediate position
(none exists), refuting the claim as universally stated. -/
theorem between_claim_counterexample :
    Position.compare Position.start [0] = Ordering.lt ∧
    Position.between Position.start [0] = Except.error ApplyError.invalidPosition := by
  exact ⟨rfl, rfl⟩

/-- Witness for the amended C3 theorem at concrete inputs. -/
theorem between_correct_witness :
    (∃ c, Position.between [1] [3] = Except.ok c ∧
      Position.compare [1] c = Ordering.lt ∧ Position.compare c [3] = Ordering.lt)
    ∧ Position.between [2] [1] = Except.error ApplyError.invalidPosition
    ∧ (Position.between ([] : Position) ([] ++ [0]) = Except.error ApplyError.invalidPosition ∧
       ∀ c, ¬(Position.compare ([] : Position) c = Ordering.lt ∧
              Position.compare c ([] ++ [0] : Position) = Ordering.lt)) :=
  ⟨(between_correct [1] [3]).1 (by decide) (by decide),
   (between_correct [2] [1]).2.1 (by decide),
   (between_correct [] ([] ++ [0])).2.2 rfl⟩

theorem mem_insertSorted {e y : CharacterEntry} {l : List CharacterEntry}
    (h : y ∈ (insertSorted e l).1) : y = e ∨ y ∈ l := by
  induction l with
  | nil =>
    simp [insertSorted] at h
    exact Or.inl h
  | cons x xs ih =>
    cases hc : Position.compare x.position e.position with
    | lt =>
      simp only [insertSorted, hc] at h
      rcases List.mem_cons.mp h with h | h
      · exact Or.inr (h ▸ List.mem_cons_self x xs)
      · rcases ih h with h' | h'
        · exact Or.inl h'
        · exact Or.inr (List.mem_cons_of_mem _ h')
    | eq =>
      simp only [insertSorted, hc] at h
      exact Or.inr h
    | gt =>
      simp only [insertSorted, hc] at h
      rcases List.mem_cons.mp h with h | h
      · exact Or.inl h
      · exact Or.inr h

theorem insertSorted_sorted {e : CharacterEntry} {l : List CharacterEntry}
    (h : SortedChars l) : SortedChars (insertSorted e l).1 := by
  induction l with
  | nil => simp [insertSorted, SortedChars]
  | cons x xs ih =>
    rw [SortedChars, List.pairwise_cons] at h
    obtain ⟨hx, hxs⟩ := h
    cases hc : Position.compare x.position e.position with
    | lt =>
      simp only [insertSorted, hc]
      rw [SortedChars, List.pairwise_cons]
      refine ⟨?_, ih hxs⟩
      intro y hy
      rcases mem_insertSorted hy with rfl | hy'
      · exact hc
      · exact hx y hy'
    | eq =>
      simp only [insertSorted, hc]
      exact List.Pairwise.cons hx hxs
    | gt =>
      simp only [insertSorted, hc]
      rw [SortedChars, List.pairwise_cons]
      refine ⟨?_, List.Pairwise.cons hx hxs⟩
      intro y hy
      rcases List.mem_cons.mp hy with rfl | hy'
      · exact pos_gt_iff_lt.mp hc
      · exact pos_lt_trans (pos_gt_iff_lt.mp hc) (hx y hy')

theorem insertSorted_dup_eq {e : CharacterEntry} {l : List CharacterEntry}
    (h : (insertSorted e l).2 = true) : (insertSorted e l).1 = l := by
  induction l with
  | nil => simp [insertSorted] at h
  | cons x xs ih =>
    cases hc : Position.compare x.position e.position with
    | lt =>
      simp only [insertSorted, hc] at h ⊢
      rw [ih h]
    | eq => simp [insertSorted, hc]
    | gt => simp [insertSorted, hc] at h

theorem insertSorted_again {e : CharacterEntry} {l : List CharacterEntry} :
    (insertSorted e (insertSorted e l).1).2 = true := by
  induction l with
  | nil => simp [insertSorted, pos_compare_self]
  | cons x xs ih =>
    cases hc : Position.compare x.position e.position with
    | lt =>
      simp only [insertSorted, hc]
      exact ih
    | eq => simp [insertSorted, hc]
    | gt => simp [insertSorted, hc, pos_compare_self]

theorem lookupEntry_eq_none {l : List CharacterEntry} {p : Position}
    (h : ∀ y ∈ l, y.position ≠ p) : lookupEntry l p = none := by
  induction l with
  | nil => rfl
  | cons x xs ih =>
    simp only [lookupEntry, if_neg (h x (List.mem_cons_self x xs))]
    exact ih fun y hy => h y (List.mem_cons_of_mem _ hy)

theorem lookupEntry_some_mem {l : List CharacterEntry} {p : Position}
    {v : Char × Bool} (h : lookupEntry l p = some v) :
    ∃ e, e ∈ l ∧ e.position = p ∧ v = (e.character, e.deleted) := by
  induction l with
  | nil => simp [lookupEntry] at h
  | cons x xs ih =>
    by_cases hx : x.position = p
    · simp only [lookupEntry, if_pos hx] at h
      exact ⟨x, List.mem_cons_self x xs, hx, (Option.some.inj h).symm⟩
    · simp only [lookupEntry, if_neg hx] at h
      obtain ⟨e, he, hep, hev⟩ := ih h
      exact ⟨e, List.mem_cons_of_mem _ he, hep, hev⟩

theorem insertSorted_dup_lookup {e : CharacterEntry} {l : List CharacterEntry}
    (h : (insertSorted e l).2 = true) : lookupEntry l e.position ≠ none := by
  induction l with
  | nil => simp [insertSorted] at h
  | cons x xs ih =>
    cases hc : Position.compare x.position e.position with
    | lt =>
      simp only [insertSorted, hc] at h
      simp only [lookupEntry, if_neg (pos_lt_ne hc)]
      exact ih h
    | eq =>
      simp [lookupEntry, if_pos (pos_eq_of_compare_eq hc)]
    | gt => simp [insertSorted, hc] at h

theorem insertSorted_nodup_lookup {e : CharacterEntry} {l : List CharacterEntry}
    (hs : SortedChars l) (h : (insertSorted e l).2 = false) :
    lookupEntry l e.position = none := by
  induction l with
  | nil => rfl
  | cons x xs ih =>
    rw [SortedChars, List.pairwise_cons] at hs
    obtain ⟨hx, hxs⟩ := hs
    cases hc : Position.compare x.position e.position with
    | lt =>
      simp only [insertSorted, hc] at h
      simp only [lookupEntry, if_neg (pos_lt_ne hc)]
      exact ih hxs h
    | eq => simp [insertSorted, hc] at h
    | gt =>
      apply lookupEntry_eq_none
      intro y hy
      rcases List.mem_cons.mp hy with rfl | hy'
      · exact fun hq => pos_lt_ne (pos_gt_iff_lt.mp hc) hq.symm
      · exact fun hq =>
          pos_lt_ne (pos_lt_trans (pos_gt_iff_lt.mp hc) (hx y hy')) hq.symm

theorem markDeleted_not_marked {p : Position} {l : List CharacterEntry}
    (h : (markDeleted p l).2 = false) : (markDeleted p l).1 = l := by
  induction l with
  | nil => rfl
  | cons x xs ih =>
    by_cases hx : x.position = p
    · by_cases hd : x.deleted
      · simp [markDeleted, hx, hd]
      · simp [markDeleted, hx, hd] at h
    · simp only [markDeleted, if_neg hx] at h ⊢
      rw [ih h]

theorem markDeleted_no_match {p : Position} {l : List CharacterEntry}
    (h : ∀ e ∈ l, e.position ≠ p) : markDeleted p l = (l, false) := by
  induction l with
  | nil => rfl
  | cons x xs ih =>
    have hx := h x (List.mem_cons_self x xs)
    simp only [markDeleted, if_neg hx]
    rw [ih fun y hy => h y (List.mem_cons_of_mem _ hy)]

theorem markDeleted_map_pos {p : Position} {l : List CharacterEntry} :
    ((markDeleted p l).1).map (fun e => e.position) =
      l.map (fun e => e.position) := by
  induction l with
  | nil => rfl
  | cons x xs ih =>
    by_cases hx : x.position = p
    · by_cases hd : x.deleted
      · simp [markDeleted, hx, hd]
      · simp [markDeleted, hx, hd]
    · simp only [markDeleted, if_neg hx, List.map_cons]
      rw [ih]

theorem markDeleted_mem {p : Position} {l : List CharacterEntry}
    {y : CharacterEntry} (h : y ∈ (markDeleted p l).1) :
    y ∈ l ∨ ∃ x, x ∈ l ∧ y = { x with deleted := true } := by
  induction l with
  | nil => simp [markDeleted] at h
  | cons x xs ih =>
    by_cases hx : x.position = p
    · by_cases hd : x.deleted
      · simp only [markDeleted, if_pos hx, if_pos hd] at h
        exact Or.inl h
      · simp only [markDeleted, if_pos hx, if_neg hd] at h
        rcases List.mem_cons.mp h with rfl | h'
        · exact Or.inr ⟨x, List.mem_cons_self x xs, rfl⟩
        · exact Or.inl (List.mem_cons_of_mem _ h')
    · simp only [markDeleted, if_neg hx] at h
      rcases List.mem_cons.mp h with rfl | h'
      · exact Or.inl (List.mem_cons_self y xs)
      · rcases ih h' with h'' | ⟨x', hx', hy⟩
        · exact Or.inl (List.mem_cons_of_mem _ h'')
        · exact Or.inr ⟨x', List.mem_cons_of_mem _ hx', hy⟩

theorem markDeleted_sorted {p : Position} {l : List CharacterEntry}
    (h : SortedChars l) : SortedChars (markDeleted p l).1 := by
  induction l with
  | nil => exact h
  | cons x xs ih =>
    rw [SortedChars, List.pairwise_cons] at h
    obtain ⟨hx, hxs⟩ := h
    by_cases hxp : x.position = p
    · by_cases hd : x.deleted
      · simp only [markDeleted, if_pos hxp, if_pos hd]
        exact List.Pairwise.cons hx hxs
      · simp only [markDeleted, if_pos hxp, if_neg hd]
        rw [SortedChars, List.pairwise_cons]
        exact ⟨fun y hy => hx y hy, hxs⟩
    · simp only [markDeleted, if_neg hxp]
      rw [SortedChars, List.pairwise_cons]
      refine ⟨?_, ih hxs⟩
      intro y hy
      rcases markDeleted_mem hy with h' | ⟨x', hx', rfl⟩
      · exact hx y h'
      · exact hx x' hx'

theorem markDeleted_again {p : Position} {l : List CharacterEntry} :
    markDeleted p (markDeleted p l).1 = ((markDeleted p l).1, false) := by
  induction l with
  | nil => rfl
  | cons x xs ih =>
    by_cases hx : x.position = p
    · by_cases hd : x.deleted
      · simp [markDeleted, hx, hd]
      · simp [markDeleted, hx, hd]
    · simp only [markDeleted, if_neg hx]
      rw [ih]

theorem markDeleted_marked_structure {p : Position} {l : List CharacterEntry}
    (h : (markDeleted p l).2 = true) :
    ∃ l₁ x l₂, l = l₁ ++ x :: l₂ ∧ x.deleted = false ∧ x.position = p ∧
      (markDeleted p l).1 = l₁ ++ { x with deleted := true } :: l₂ := by
  induction l with
  | nil => simp [markDeleted] at h
  | cons x xs ih =>
    by_cases hx : x.position = p
    · by_cases hd : x.deleted
      · simp [markDeleted, hx, hd] at h
      · refine ⟨[], x, xs, by simp, by simpa using hd, hx, ?_⟩
        simp [markDeleted, hx, hd]
    · simp only [markDeleted, if_neg hx] at h
      obtain ⟨l₁, y, l₂, hl, hyd, hyp, hm⟩ := ih h
      refine ⟨x :: l₁, y, l₂, by rw [hl]; rfl, hyd, hyp, ?_⟩
      simp only [markDeleted, if_neg hx, hm]
      rfl

theorem lookup_markDeleted {p : Position} {l : List CharacterEntry}
    {q : Position} :
    lookupEntry (markDeleted p l).1 q =
      if q = p then (lookupEntry l q).map (fun v => (v.1, true))
      else lookupEntry l q := by
  induction l with
  | nil => simp [markDeleted, lookupEntry]
  | cons x xs ih =>
    by_cases hxp : x.position = p
    · by_cases hd : x.deleted
      · simp only [markDeleted, if_pos hxp, if_pos hd]
        by_cases hq : q = p
        · rw [if_pos hq]
          simp [lookupEntry, hxp, hq, hd]
        · rw [if_neg hq]
      · simp only [markDeleted, if_pos hxp, if_neg hd]
        by_cases hq : q = p
        · rw [if_pos hq]
          simp [lookupEntry, hxp, hq]
        · rw [if_neg hq]
          have hxq : ¬ x.position = q := fun hc => hq (hc ▸ hxp ▸ rfl)
          simp only [lookupEntry]
          rw [if_neg (by simpa using hxq), if_neg hxq]
    · simp only [markDeleted, if_neg hxp]
      by_cases hxq : x.position = q
      · have hq : ¬ q = p := fun hc => hxp (hxq.trans hc)
        rw [if_neg hq]
        simp [lookupEntry, hxq]
      · simp only [lookupEntry, if_neg hxq]
        rw [ih]

theorem lookup_insertSorted {e : CharacterEntry} {l : List CharacterEntry}
    {q : Position} (hs : SortedChars l) :
    lookupEntry (insertSorted e l).1 q =
      if q = e.position then
        some ((lookupEntry l q).getD (e.character, e.deleted))
      else lookupEntry l q := by
  induction l with
  | nil =>
    by_cases hq : q = e.position
    · simp [insertSorted, lookupEntry, hq]
    · have h2 : ¬ e.position = q := fun h => hq h.symm
      simp [insertSorted, lookupEntry, hq, h2]
  | cons x xs ih =>
    rw [SortedChars, List.pairwise_cons] at hs
    obtain ⟨hx, hxs⟩ := hs
    cases hc : Position.compare x.position e.position with
    | lt =>
      simp only [insertSorted, hc]
      by_cases hxq : x.position = q
      · have hq : ¬ q = e.position := fun h => pos_lt_ne hc (hxq.trans h)
        rw [if_neg hq]
        simp [lookupEntry, hxq]
      · simp only [lookupEntry, if_neg hxq]
        rw [ih hxs]
    | eq =>
      have hxe : x.position = e.position := pos_eq_of_compare_eq hc
      simp only [insertSorted, hc]
      by_cases hq : q = e.position
      · rw [if_pos hq]
        have hxq : x.position = q := hxe.trans hq.symm
        simp [lookupEntry, hxq]
      · rw [if_neg hq]
    | gt =>
      simp only [insertSorted, hc]
      by_cases hq : q = e.position
      · rw [if_pos hq]
        have hnone : lookupEntry (x :: xs) q = none := by
          apply lookupEntry_eq_none
          intro y hy
          rcases List.mem_cons.mp hy with rfl | hy'
          · exact fun hyq =>
              pos_lt_ne (pos_gt_iff_lt.mp hc) ((hyq.trans hq).symm)
          · exact fun hyq =>
              pos_lt_ne (pos_lt_trans (pos_gt_iff_lt.mp hc) (hx y hy'))
                ((hyq.trans hq).symm)
        rw [hnone]
        simp [lookupEntry, hq.symm]
      · rw [if_neg hq]
        have heq : ¬ e.position = q := fun h => hq h.symm
        simp [lookupEntry, heq]

theorem apply_fst_ok (doc : Document) (op : Operation) :
    (Document.apply doc op).1 = Except.ok () := by
  cases op with
  | insert cid c p ts =>
    simp only [Document.apply]
    split <;> rfl
  | delete cid p ts => rfl

theorem apply_gc_threshold (doc : Document) (op : Operation) :
    ((Document.apply doc op).2).gc_threshold = doc.gc_threshold := by
  cases op with
  | insert cid c p ts =>
    simp only [Document.apply]
    split <;> rfl
  | delete cid p ts =>
    simp only [Document.apply]
    split <;> split <;> rfl

theorem apply_delete_no_gc {doc : Document} (hth : doc.gc_threshold = none)
    (cid : String) (p : Position) (ts : Timestamp) :
    (Document.apply doc (Operation.delete cid p ts)).2 =
      { doc with
        characters := (markDeleted p doc.characters).1
        deleted_count :=
          if (markDeleted p doc.characters).2 then doc.deleted_count + 1
          else doc.deleted_count
        operation_log := doc.operation_log ++ [Operation.delete cid p ts]
        timestamp := Timestamp.update doc.timestamp ts } := by
  simp [Document.apply, hth]

theorem apply_sorted {doc : Document} (op : Operation)
    (hs : SortedChars doc.characters) :
    SortedChars ((Document.apply doc op).2).characters := by
  cases op with
  | insert cid c p ts =>
    simp only [Document.apply]
    split
    · exact hs
    · exact insertSorted_sorted hs
  | delete cid p ts =>
    simp only [Document.apply]
    split <;> split
    · exact List.Pairwise.sublist (List.filter_sublist _) (markDeleted_sorted hs)
    · exact markDeleted_sorted hs
    · exact List.Pairwise.sublist (List.filter_sublist _) (markDeleted_sorted hs)
    · exact markDeleted_sorted hs

theorem lookup_apply {doc : Document} (hs : SortedChars doc.characters)
    (hth : doc.gc_threshold = none) (op : Operation) (q : Position) :
    lookupEntry ((Document.apply doc op).2).characters q =
      if Operation.position op = q then
        stepAbs (lookupEntry doc.characters q) op
      else lookupEntry doc.characters q := by
  cases op with
  | insert cid c p ts =>
    simp only [Document.apply, Operation.position]
    by_cases hdup : (insertSorted ⟨c, p, false, ts⟩ doc.characters).2 = true
    · rw [if_pos hdup]
      by_cases hq : p = q
      · subst hq
        rw [if_pos rfl]
        cases hl : lookupEntry doc.characters p with
        | none => exact absurd hl (insertSorted_dup_lookup hdup)
        | some v => simp [stepAbs, hl]
      · rw [if_neg hq]
    · rw [if_neg hdup]
      have hdup' : (insertSorted ⟨c, p, false, ts⟩ doc.characters).2 = false := by
        simpa using hdup
      have hnone : lookupEntry doc.characters p = none :=
        insertSorted_nodup_lookup hs hdup'
      by_cases hq : p = q
      · subst hq
        rw [if_pos rfl]
        rw [lookup_insertSorted (e := ⟨c, p, false, ts⟩) hs]
        simp [hnone, stepAbs]
      · rw [if_neg hq]
        rw [lookup_insertSorted (e := ⟨c, p, false, ts⟩) hs]
        rw [if_neg (fun h => hq (Eq.symm h))]
  | delete cid p ts =>
    rw [apply_delete_no_gc hth]
    simp only [Operation.position]
    by_cases hq : p = q
    · subst hq
      rw [if_pos rfl]
      simp [lookup_markDeleted, stepAbs]
    · rw [if_neg hq]
      have hqp : ¬ q = p := fun h => hq h.symm
      simp [lookup_markDeleted, hqp]

theorem applyOps_cons (doc : Document) (op : Operation) (l : List Operation) :
    applyOps doc (op :: l) = applyOps (Document.apply doc op).2 l := rfl

theorem applyOps_sorted (l : List Operation) :
    ∀ doc : Document, SortedChars doc.characters →
      SortedChars (applyOps doc l).characters := by
  induction l with
  | nil => exact fun doc hs => hs
  | cons op l ih =>
    intro doc hs
    rw [applyOps_cons]
    exact ih _ (apply_sorted op hs)

theorem applyOps_threshold (l : List Operation) :
    ∀ doc : Document, (applyOps doc l).gc_threshold = doc.gc_threshold := by
  induction l with
  | nil => exact fun doc => rfl
  | cons op l ih =>
    intro doc
    rw [applyOps_cons, ih, apply_gc_threshold]

theorem lookup_applyOps (l : List Operation) (q : Position) :
    ∀ doc : Document, SortedChars doc.characters → doc.gc_threshold = none →
      lookupEntry (applyOps doc l).characters q =
        (opsAt q l).foldl stepAbs (lookupEntry doc.characters q) := by
  induction l with
  | nil => exact fun doc _ _ => rfl
  | cons op l ih =>
    intro doc hs hth
    rw [applyOps_cons]
    have hs' : SortedChars ((Document.apply doc op).2).characters :=
      apply_sorted op hs
    have hth' : ((Document.apply doc op).2).gc_threshold = none :=
      (apply_gc_threshold doc op).trans hth
    rw [ih _ hs' hth']
    by_cases hpos : Operation.position op = q
    · have hcons : opsAt q (op :: l) = op :: opsAt q l := by
        simp [opsAt, List.filter_cons, hpos]
      rw [hcons, List.foldl_cons, lookup_apply hs hth op q, if_pos hpos]
    · have hcons : opsAt q (op :: l) = opsAt q l := by
        simp [opsAt, List.filter_cons, hpos]
      rw [hcons, lookup_apply hs hth op q, if_neg hpos]

theorem foldl_stepAbs_some (m : List Operation) :
    ∀ (c : Char) (b : Bool),
      m.foldl stepAbs (some (c, b)) =
        some (c, b || m.any (fun o => !o.isInsert)) := by
  induction m with
  | nil => intro c b; simp
  | cons op rest ih =>
    intro c b
    cases op with
    | insert cid ch p ts =>
      simp only [List.foldl_cons]
      have e1 : stepAbs (some (c, b)) (Operation.insert cid ch p ts) = some (c, b) := rfl
      rw [e1, ih]
      simp [Operation.isInsert]
    | delete cid p ts =>
      simp only [List.foldl_cons]
      have e1 : stepAbs (some (c, b)) (Operation.delete cid p ts) = some (c, true) := rfl
      rw [e1, ih]
      simp [Operation.isInsert]

theorem foldl_stepAbs_none_no_ins {m : List Operation}
    (h : ∀ o ∈ m, o.isInsert = false) : m.foldl stepAbs none = none := by
  induction m with
  | nil => rfl
  | cons op rest ih =>
    cases op with
    | insert cid ch p ts =>
      exact absurd (h _ (List.mem_cons_self _ _)) (by simp [Operation.isInsert])
    | delete cid p ts =>
      simp only [List.foldl_cons]
      have e1 : stepAbs none (Operation.delete cid p ts) = none := rfl
      rw [e1]
      exact ih fun o ho => h o (List.mem_cons_of_mem _ ho)

theorem perm_any {l1 l2 : List Operation} (f : Operation → Bool)
    (h : l1.Perm l2) : l1.any f = l2.any f := by
  cases h1 : l1.any f with
  | true =>
    obtain ⟨x, hx, hfx⟩ := List.any_eq_true.mp h1
    exact (List.any_eq_true.mpr ⟨x, h.mem_iff.mp hx, hfx⟩).symm
  | false =>
    cases h2 : l2.any f with
    | false => rfl
    | true =>
      obtain ⟨x, hx, hfx⟩ := List.any_eq_true.mp h2
      have : l1.any f = true := List.any_eq_true.mpr ⟨x, h.mem_iff.mpr hx, hfx⟩
      rw [h1] at this
      exact this

theorem fold_perm_eq {m1 m2 : List Operation} (hperm : m1.Perm m2)
    (h1 : headInsOk m1) (h2 : headInsOk m2)
    (hagree : ∀ o1 ∈ m1, ∀ o2 ∈ m1, o1.isInsert = true → o2.isInsert = true →
      Operation.charOf o1 = Operation.charOf o2) :
    m1.foldl stepAbs none = m2.foldl stepAbs none := by
  by_cases hins : m1.any (fun o => o.isInsert) = true
  · cases m1 with
    | nil => simp at hins
    | cons op1 r1 =>
      cases m2 with
      | nil => exact absurd (List.perm_nil.mp hperm) (by simp)
      | cons op2 r2 =>
        have hop1 : op1.isInsert = true := h1 hins
        have hins2 : (op2 :: r2).any (fun o => o.isInsert) = true := by
          rw [← perm_any _ hperm]
          exact hins
        have hop2 : op2.isInsert = true := h2 hins2
        cases op1 with
        | delete _ _ _ => simp [Operation.isInsert] at hop1
        | insert cid1 c1 p1 ts1 =>
          cases op2 with
          | delete _ _ _ => simp [Operation.isInsert] at hop2
          | insert cid2 c2 p2 ts2 =>
            have hmem2 : Operation.insert cid2 c2 p2 ts2 ∈
                (Operation.insert cid1 c1 p1 ts1 :: r1) :=
              hperm.mem_iff.mpr (List.mem_cons_self _ _)
            have hch := hagree _ (List.mem_cons_self _ _) _ hmem2 rfl rfl
            have hc : c1 = c2 := by simpa [Operation.charOf] using hch
            subst hc
            simp only [List.foldl_cons]
            have e1 : stepAbs none (Operation.insert cid1 c1 p1 ts1) =
              some (c1, false) := rfl
            have e2 : stepAbs none (Operation.insert cid2 c1 p2 ts2) =
              some (c1, false) := rfl
            rw [e1, e2, foldl_stepAbs_some, foldl_stepAbs_some]
            have hany := perm_any (fun o => !o.isInsert) hperm
            have hh1 : (Operation.insert cid1 c1 p1 ts1).isInsert = true := rfl
            have hh2 : (Operation.insert cid2 c1 p2 ts2).isInsert = true := rfl
            simp only [List.any_cons, hh1, hh2, Bool.not_true,
              Bool.false_or] at hany
            rw [hany]
  · have hno1 : ∀ o ∈ m1, o.isInsert = false := by
      intro o ho
      by_contra hcon
      exact hins (List.any_eq_true.mpr ⟨o, ho, by simpa using hcon⟩)
    have hno2 : ∀ o ∈ m2, o.isInsert = false :=
      fun o ho => hno1 o (hperm.mem_iff.mpr ho)
    rw [foldl_stepAbs_none_no_ins hno1, foldl_stepAbs_none_no_ins hno2]

theorem headInsOk_all {l : List Operation} (hc : DeletesFollowInserts l)
    (q : Position) : headInsOk (opsAt q l) := by
  by_cases hq : q ∈ l.map Operation.position
  · exact hc q hq
  · have hnil : opsAt q l = [] := by
      rw [opsAt, List.filter_eq_nil_iff]
      intro o ho hbeq
      have hpos : Operation.position o = q := by simpa using hbeq
      exact hq (hpos ▸ List.mem_map_of_mem Operation.position ho)
    rw [hnil]
    trivial

theorem sorted_ext : ∀ s1 s2 : List CharacterEntry, SortedChars s1 →
    SortedChars s2 → (∀ q, lookupEntry s1 q = lookupEntry s2 q) →
    s1.map entView = s2.map entView := by
  intro s1
  induction s1 with
  | nil =>
    intro s2 _ _ h
    cases s2 with
    | nil => rfl
    | cons e2 t2 =>
      have := h e2.position
      simp [lookupEntry] at this
  | cons e1 t1 ih =>
    intro s2 hs1 hs2 h
    cases s2 with
    | nil =>
      have := h e1.position
      simp [lookupEntry] at this
    | cons e2 t2 =>
      rw [SortedChars, List.pairwise_cons] at hs1 hs2
      obtain ⟨hx1, ht1⟩ := hs1
      obtain ⟨hx2, ht2⟩ := hs2
      have hpos : e1.position = e2.position := by
        by_contra hne
        have l1 : lookupEntry (e1 :: t1) e1.position =
            some (e1.character, e1.deleted) := by simp [lookupEntry]
        rw [h e1.position] at l1
        obtain ⟨y, hy, hyp, _⟩ := lookupEntry_some_mem l1
        rcases List.mem_cons.mp hy with rfl | hy'
        · exact hne hyp.symm
        · have hlt2 : Position.compare e2.position e1.position = Ordering.lt :=
            hyp ▸ hx2 y hy'
          have l3 : lookupEntry (e2 :: t2) e2.position =
              some (e2.character, e2.deleted) := by simp [lookupEntry]
          rw [← h e2.position] at l3
          obtain ⟨z, hz, hzp, _⟩ := lookupEntry_some_mem l3
          rcases List.mem_cons.mp hz with rfl | hz'
          · exact hne hzp
          · have hlt1 : Position.compare e1.position e2.position = Ordering.lt :=
              hzp ▸ hx1 z hz'
            exact pos_lt_asymm hlt1 hlt2
      have hl := h e1.position
      have hE1 : lookupEntry (e1 :: t1) e1.position =
          some (e1.character, e1.deleted) := by simp [lookupEntry]
      have hE2 : lookupEntry (e2 :: t2) e1.position =
          some (e2.character, e2.deleted) := by simp [lookupEntry, hpos.symm]
      rw [hE1, hE2] at hl
      have hcd := Option.some.inj hl
      have hc : e1.character = e2.character := congrArg Prod.fst hcd
      have hd : e1.deleted = e2.deleted := congrArg Prod.snd hcd
      have htl : ∀ q, lookupEntry t1 q = lookupEntry t2 q := by
        intro q
        by_cases hq : q = e1.position
        · subst hq
          have n1 : lookupEntry t1 e1.position = none :=
            lookupEntry_eq_none fun y hy hyq => pos_lt_ne (hx1 y hy) hyq.symm
          have n2 : lookupEntry t2 e1.position = none :=
            lookupEntry_eq_none fun y hy hyq =>
              pos_lt_ne (hx2 y hy) (hyq.trans hpos).symm
          rw [n1, n2]
        · have hlq := h q
          simp only [lookupEntry] at hlq
          rw [if_neg fun hh => hq hh.symm,
            if_neg fun hh => hq ((hpos.trans hh).symm)] at hlq
          exact hlq
      simp only [List.map_cons]
      rw [ih t2 ht1 ht2 htl]
      have hv : entView e1 = entView e2 := by
        rw [entView, entView, hpos, hc, hd]
      rw [hv]

theorem visible_eq_of_entView : ∀ s1 s2 : List CharacterEntry,
    s1.map entView = s2.map entView → visibleChars s1 = visibleChars s2 := by
  intro s1
  induction s1 with
  | nil =>
    intro s2 h
    cases s2 with
    | nil => rfl
    | cons e2 t2 => simp at h
  | cons e1 t1 ih =>
    intro s2 h
    cases s2 with
    | nil => simp at h
    | cons e2 t2 =>
      simp only [List.map_cons, List.cons.injEq] at h
      obtain ⟨hv, ht⟩ := h
      have hc : e1.character = e2.character := congrArg (fun v => v.2.1) hv
      have hd : e1.deleted = e2.deleted := congrArg (fun v => v.2.2) hv
      have hrest := ih t2 ht
      by_cases hdel : e2.deleted = true
      · have hd1 : e1.deleted = true := hd.trans hdel
        simp only [visibleChars, List.filter_cons, hd1, hdel] at hrest ⊢
        simpa [visibleChars] using hrest
      · have hd2 : e2.deleted = false := by simpa using hdel
        have hd1 : e1.deleted = false := hd.trans hd2
        simp only [visibleChars, List.filter_cons, hd1, hd2]
        simp only [visibleChars] at hrest
        simp [hrest, hc]

/-- C1 (amended): convergence holds for causally ordered deliveries.  For
any permutation l2 of an operation list l1, if concurrent Inserts aimed
at one Position agree on the character and in each delivery order no
Delete precedes the first Insert of its Position, then two fresh
Documents that apply l1 and l2 respectively end with identical
get_visible_text.  The amendment is forced by the tolerated-no-op Delete
policy: a Delete delivered before its Insert is dropped, so unrestricted
permutations can diverge (see the counterexample). -/
theorem convergence_of_causal (id1 id2 : String) (l1 l2 : List Operation)
    (hperm : l1.Perm l2) (hagree : InsertsAgree l1)
    (hc1 : DeletesFollowInserts l1) (hc2 : DeletesFollowInserts l2) :
    (applyOps (Document.new id1) l1).get_visible_text =
      (applyOps (Document.new id2) l2).get_visible_text := by
  have hs1 : SortedChars (Document.new id1).characters := List.Pairwise.nil
  have hs2 : SortedChars (Document.new id2).characters := List.Pairwise.nil
  have hth1 : (Document.new id1).gc_threshold = none := rfl
  have hth2 : (Document.new id2).gc_threshold = none := rfl
  have hlook : ∀ q, lookupEntry (applyOps (Document.new id1) l1).characters q =
      lookupEntry (applyOps (Document.new id2) l2).characters q := by
    intro q
    rw [lookup_applyOps l1 q _ hs1 hth1, lookup_applyOps l2 q _ hs2 hth2]
    refine fold_perm_eq (hperm.filter _) (headInsOk_all hc1 q)
      (headInsOk_all hc2 q) ?_
    intro o1 ho1 o2 ho2 hi1 hi2
    have hp1 : Operation.position o1 = q := by simpa using List.of_mem_filter ho1
    have hp2 : Operation.position o2 = q := by simpa using List.of_mem_filter ho2
    exact hagree o1 (List.mem_of_mem_filter ho1) o2 (List.mem_of_mem_filter ho2)
      hi1 hi2 (hp1.trans hp2.symm)
  have hviews := sorted_ext _ _ (applyOps_sorted l1 _ hs1)
    (applyOps_sorted l2 _ hs2) hlook
  exact visible_eq_of_entView _ _ hviews

/-- C1 counterexample: the two-element multiset consisting of an Insert
at position [1] and a Delete of position [1], applied to fresh documents
in its two orders, yields different visible texts — Insert-then-Delete
tombstones the character while Delete-then-Insert drops the Delete as a
no-op and leaves the character visible.  Unrestricted convergence over
every pair of orders is therefore false. -/
theorem convergence_counterexample :
    ([Operation.insert "a" 'x' [1] ⟨1, "a"⟩,
      Operation.delete "b" [1] ⟨2, "b"⟩].Perm
      [Operation.delete "b" [1] ⟨2, "b"⟩,
       Operation.insert "a" 'x' [1] ⟨1, "a"⟩])
    ∧ (applyOps (Document.new "r")
        [Operation.insert "a" 'x' [1] ⟨1, "a"⟩,
         Operation.delete "b" [1] ⟨2, "b"⟩]).get_visible_text ≠
      (applyOps (Document.new "r")
        [Operation.delete "b" [1] ⟨2, "b"⟩,
         Operation.insert "a" 'x' [1] ⟨1, "a"⟩]).get_visible_text := by
  exact ⟨List.Perm.swap _ _ _, by decide⟩

/-- Witness for the amended C1 theorem on a concrete causally ordered
pair of deliveries. -/
theorem convergence_of_causal_witness :
    ([Operation.insert "a" 'x' [1] ⟨1, "a"⟩,
      Operation.insert "b" 'y' [2] ⟨1, "b"⟩].Perm
      [Operation.insert "b" 'y' [2] ⟨1, "b"⟩,
       Operation.insert "a" 'x' [1] ⟨1, "a"⟩])
    ∧ InsertsAgree [Operation.insert "a" 'x' [1] ⟨1, "a"⟩,
        Operation.insert "b" 'y' [2] ⟨1, "b"⟩]
    ∧ DeletesFollowInserts [Operation.insert "a" 'x' [1] ⟨1, "a"⟩,
        Operation.insert "b" 'y' [2] ⟨1, "b"⟩]
    ∧ DeletesFollowInserts [Operation.insert "b" 'y' [2] ⟨1, "b"⟩,
        Operation.insert "a" 'x' [1] ⟨1, "a"⟩]
    ∧ (applyOps (Document.new "u")
        [Operation.insert "a" 'x' [1] ⟨1, "a"⟩,
         Operation.insert "b" 'y' [2] ⟨1, "b"⟩]).get_visible_text =
      (applyOps (Document.new "v")
        [Operation.insert "b" 'y' [2] ⟨1, "b"⟩,
         Operation.insert "a" 'x' [1] ⟨1, "a"⟩]).get_visible_text :=
  ⟨List.Perm.swap _ _ _, by decide, by decide, by decide,
   convergence_of_causal "u" "v" _ _ (List.Perm.swap _ _ _) (by decide)
     (by decide) (by decide)⟩

theorem apply_delete_chars_of_not_marked {doc : Document} {cid : String}
    {p : Position} {ts : Timestamp}
    (h : (markDeleted p doc.characters).2 = false) :
    ((Document.apply doc (Operation.delete cid p ts)).2).characters = doc.characters
    ∧ ((Document.apply doc (Operation.delete cid p ts)).2).deleted_count =
        doc.deleted_count := by
  have h1 := markDeleted_not_marked h
  simp [Document.apply, h, h1]

theorem marked_gc_no_entry_at {doc : Document} {p : Position}
    (hs : SortedChars doc.characters)
    (hm : (markDeleted p doc.characters).2 = true) :
    ∀ e ∈ (markDeleted p doc.characters).1.filter (fun e => !e.deleted),
      e.position ≠ p := by
  obtain ⟨l₁, x, l₂, hl, hxd, hxp, hm1⟩ := markDeleted_marked_structure hm
  intro e he hep
  have he' : e ∈ (markDeleted p doc.characters).1 := List.mem_of_mem_filter he
  have hend : e.deleted = false := by simpa using List.of_mem_filter he
  rw [hm1] at he'
  have hsorted : SortedChars (l₁ ++ x :: l₂) := hl ▸ hs
  rw [SortedChars, List.pairwise_append] at hsorted
  obtain ⟨hp1, hp2, hp12⟩ := hsorted
  rcases List.mem_append.mp he' with h1 | h2
  · have hlt : entLt e x := hp12 e h1 x (List.mem_cons_self _ _)
    exact pos_lt_ne hlt (hep.trans hxp.symm)
  · rcases List.mem_cons.mp h2 with rfl | h3
    · simp at hend
    · rw [List.pairwise_cons] at hp2
      have hlt : entLt x e := hp2.1 e h3
      exact pos_lt_ne hlt (hxp.trans hep.symm)

/-- C2: idempotence of apply on the visible state.  Starting from any
Document whose store satisfies the sorted invariant, applying the same
Operation twice leaves the character store (and hence get_visible_text)
exactly as after applying it once; and an Insert whose Position already
exists in the store returns success without mutating the Document at
all. -/
theorem apply_idempotent (doc : Document) (op : Operation)
    (hs : SortedChars doc.characters) :
    ((Document.apply (Document.apply doc op).2 op).2.characters =
        (Document.apply doc op).2.characters
      ∧ (Document.apply (Document.apply doc op).2 op).2.get_visible_text =
        (Document.apply doc op).2.get_visible_text)
    ∧ (∀ (cid : String) (c : Char) (p : Position) (ts : Timestamp),
        lookupEntry doc.characters p ≠ none →
        Document.apply doc (Operation.insert cid c p ts) = (Except.ok (), doc)) := by
  have main : (Document.apply (Document.apply doc op).2 op).2.characters =
      (Document.apply doc op).2.characters := by
    cases op with
    | insert cid c p ts =>
      by_cases hdup : (insertSorted ⟨c, p, false, ts⟩ doc.characters).2 = true
      · have h1 : (Document.apply doc (Operation.insert cid c p ts)).2 = doc := by
          simp [Document.apply, hdup]
        rw [h1, h1]
      · have h1 : (Document.apply doc (Operation.insert cid c p ts)).2 =
            { doc with
              characters := (insertSorted ⟨c, p, false, ts⟩ doc.characters).1
              operation_log := doc.operation_log ++ [Operation.insert cid c p ts]
              timestamp := Timestamp.update doc.timestamp ts } := by
          simp [Document.apply, hdup]
        rw [h1]
        have h2 : (Document.apply
            { doc with
              characters := (insertSorted ⟨c, p, false, ts⟩ doc.characters).1
              operation_log := doc.operation_log ++ [Operation.insert cid c p ts]
              timestamp := Timestamp.update doc.timestamp ts }
            (Operation.insert cid c p ts)).2 =
            { doc with
              characters := (insertSorted ⟨c, p, false, ts⟩ doc.characters).1
              operation_log := doc.operation_log ++ [Operation.insert cid c p ts]
              timestamp := Timestamp.update doc.timestamp ts } := by
          simp [Document.apply, insertSorted_again]
        rw [h2]
    | delete cid p ts =>
      by_cases hm : (markDeleted p doc.characters).2 = true
      · cases hth : doc.gc_threshold with
        | none =>
          have hd1 : (Document.apply doc (Operation.delete cid p ts)).2 =
              { doc with
                characters := (markDeleted p doc.characters).1
                deleted_count := doc.deleted_count + 1
                operation_log := doc.operation_log ++ [Operation.delete cid p ts]
                timestamp := Timestamp.update doc.timestamp ts } := by
            rw [apply_delete_no_gc hth]
            simp [hm]
          rw [hd1]
          have hD : (markDeleted p
              ({ doc with
                characters := (markDeleted p doc.characters).1
                deleted_count := doc.deleted_count + 1
                operation_log := doc.operation_log ++ [Operation.delete cid p ts]
                timestamp := Timestamp.update doc.timestamp ts } :
                  Document).characters).2 = false := by
            have := markDeleted_again (p := p) (l := doc.characters)
            exact congrArg Prod.snd this
          exact (apply_delete_chars_of_not_marked hD).1
        | some n =>
          by_cases hn : n ≤ doc.deleted_count + 1
          · have hd1 : (Document.apply doc (Operation.delete cid p ts)).2 =
                { doc with
                  characters :=
                    (markDeleted p doc.characters).1.filter (fun e => !e.deleted)
                  deleted_count := 0
                  operation_log := doc.operation_log ++ [Operation.delete cid p ts]
                  timestamp := Timestamp.update doc.timestamp ts } := by
              simp [Document.apply, hm, hth, hn, Document.collect_garbage]
            rw [hd1]
            have hD : (markDeleted p
                ({ doc with
                  characters :=
                    (markDeleted p doc.characters).1.filter (fun e => !e.deleted)
                  deleted_count := 0
                  operation_log := doc.operation_log ++ [Operation.delete cid p ts]
                  timestamp := Timestamp.update doc.timestamp ts } :
                    Document).characters).2 = false := by
              have hnm := markDeleted_no_match (marked_gc_no_entry_at hs hm)
              exact congrArg Prod.snd hnm
            exact (apply_delete_chars_of_not_marked hD).1
          · have hd1 : (Document.apply doc (Operation.delete cid p ts)).2 =
                { doc with
                  characters := (markDeleted p doc.characters).1
                  deleted_count := doc.deleted_count + 1
                  operation_log := doc.operation_log ++ [Operation.delete cid p ts]
                  timestamp := Timestamp.update doc.timestamp ts } := by
              simp [Document.apply, hm, hth, hn]
            rw [hd1]
            have hD : (markDeleted p
                ({ doc with
                  characters := (markDeleted p doc.characters).1
                  deleted_count := doc.deleted_count + 1
                  operation_log := doc.operation_log ++ [Operation.delete cid p ts]
                  timestamp := Timestamp.update doc.timestamp ts } :
                    Document).characters).2 = false := by
              have := markDeleted_again (p := p) (l := doc.characters)
              exact congrArg Prod.snd this
            exact (apply_delete_chars_of_not_marked hD).1
      · have hm' : (markDeleted p doc.characters).2 = false := by simpa using hm
        have h1 : ((Document.apply doc (Operation.delete cid p ts)).2).characters =
              doc.characters
            ∧ ((Document.apply doc (Operation.delete cid p ts)).2).deleted_count =
              doc.deleted_count :=
          apply_delete_chars_of_not_marked hm'
        have hm2 : (markDeleted p
            ((Document.apply doc (Operation.delete cid p ts)).2).characters).2 =
              false := by
          rw [h1.1]
          exact hm'
        exact (apply_delete_chars_of_not_marked hm2).1
  refine ⟨⟨main, ?_⟩, ?_⟩
  · rw [Document.get_visible_text, Document.get_visible_text, main]
  · intro cid c p ts hlook
    have hdup : (insertSorted ⟨c, p, false, ts⟩ doc.characters).2 = true := by
      by_contra hcon
      exact hlook (insertSorted_nodup_lookup hs (by simpa using hcon))
    simp [Document.apply, hdup]

/-- Witness for the C2 theorem at a concrete document and Operation. -/
theorem apply_idempotent_witness :
    SortedChars (⟨"w", [⟨'a', [1], false, ⟨0, "w"⟩⟩], [], 0, none, ⟨0, "w"⟩⟩ :
        Document).characters
    ∧ (Document.apply
        (Document.apply
          (⟨"w", [⟨'a', [1], false, ⟨0, "w"⟩⟩], [], 0, none, ⟨0, "w"⟩⟩ : Document)
          (Operation.delete "c" [1] ⟨1, "c"⟩)).2
        (Operation.delete "c" [1] ⟨1, "c"⟩)).2.characters =
      (Document.apply
        (⟨"w", [⟨'a', [1], false, ⟨0, "w"⟩⟩], [], 0, none, ⟨0, "w"⟩⟩ : Document)
        (Operation.delete "c" [1] ⟨1, "c"⟩)).2.characters
    ∧ lookupEntry
        (⟨"w", [⟨'a', [1], false, ⟨0, "w"⟩⟩], [], 0, none, ⟨0, "w"⟩⟩ :
          Document).characters [1] ≠ none
    ∧ Document.apply
        (⟨"w", [⟨'a', [1], false, ⟨0, "w"⟩⟩], [], 0, none, ⟨0, "w"⟩⟩ : Document)
        (Operation.insert "c" 'b' [1] ⟨1, "c"⟩) =
      (Except.ok (),
        (⟨"w", [⟨'a', [1], false, ⟨0, "w"⟩⟩], [], 0, none, ⟨0, "w"⟩⟩ : Document)) :=
  ⟨by decide,
   (apply_idempotent _ (Operation.delete "c" [1] ⟨1, "c"⟩) (by decide)).1.1,
   by decide,
   (apply_idempotent _ (Operation.delete "c" [1] ⟨1, "c"⟩) (by decide)).2
     "c" 'b' [1] ⟨1, "c"⟩ (by decide)⟩

theorem insertSorted_split {e : CharacterEntry} {l : List CharacterEntry}
    (h : (insertSorted e l).2 = false) :
    ∃ l₁ l₂, l = l₁ ++ l₂ ∧ (insertSorted e l).1 = l₁ ++ e :: l₂ := by
  induction l with
  | nil => exact ⟨[], [], rfl, rfl⟩
  | cons x xs ih =>
    cases hc : Position.compare x.position e.position with
    | lt =>
      simp only [insertSorted, hc] at h ⊢
      obtain ⟨l₁, l₂, hl, hres⟩ := ih h
      exact ⟨x :: l₁, l₂, by rw [hl]; rfl, by rw [hres]; rfl⟩
    | eq => simp [insertSorted, hc] at h
    | gt =>
      simp only [insertSorted, hc]
      exact ⟨[], x :: xs, rfl, rfl⟩

theorem lookupEntry_none_forall {l : List CharacterEntry} {p : Position}
    (h : lookupEntry l p = none) : ∀ y ∈ l, y.position ≠ p := by
  induction l with
  | nil => intro y hy; cases hy
  | cons x xs ih =>
    intro y hy
    by_cases hx : x.position = p
    · simp [lookupEntry, hx] at h
    · simp only [lookupEntry, if_neg hx] at h
      rcases List.mem_cons.mp hy with rfl | hy'
      · exact hx
      · exact ih h y hy'

/-- C4: the sorted-store invariant.  Every Document reachable from the
empty Document through apply, collect_garbage and
set_garbage_collection_threshold has its character store strictly
ascending by Position; moreover a single apply on a sorted store never
reorders the entries it did not insert: the new position sequence,
restricted to previously present positions, is a sublist of the old
position sequence. -/
theorem sorted_store_invariant :
    (∀ doc : Document, DocReachable doc → SortedChars doc.characters)
    ∧ (∀ (doc : Document) (op : Operation), SortedChars doc.characters →
        List.Sublist
          (((Document.apply doc op).2.characters.map (fun e => e.position)).filter
            (fun q => decide (q ∈ doc.characters.map (fun e => e.position))))
          (doc.characters.map (fun e => e.position))) := by
  constructor
  · intro doc h
    induction h with
    | new id => exact List.Pairwise.nil
    | step op hd ih => exact apply_sorted op ih
    | gcStep hd ih =>
      exact List.Pairwise.sublist (List.filter_sublist _) ih
    | cfgStep n hd ih => exact ih
  · intro doc op hs
    cases op with
    | insert cid c p ts =>
      by_cases hdup : (insertSorted ⟨c, p, false, ts⟩ doc.characters).2 = true
      · have h1 : (Document.apply doc (Operation.insert cid c p ts)).2 = doc := by
          simp [Document.apply, hdup]
        rw [h1]
        exact List.filter_sublist _
      · have hdup' : (insertSorted ⟨c, p, false, ts⟩ doc.characters).2 = false := by
          simpa using hdup
        obtain ⟨l₁, l₂, hl, hres⟩ := insertSorted_split hdup'
        have hchars : (Document.apply doc (Operation.insert cid c p ts)).2.characters =
            l₁ ++ (⟨c, p, false, ts⟩ : CharacterEntry) :: l₂ := by
          simp [Document.apply, hdup, hres]
        have hnone : lookupEntry doc.characters p = none :=
          insertSorted_nodup_lookup hs hdup'
        have hpnot : p ∉ doc.characters.map (fun e => e.position) := by
          intro hmem
          obtain ⟨y, hy, hyp⟩ := List.mem_map.mp hmem
          exact lookupEntry_none_forall hnone y hy hyp
        rw [hchars]
        conv_rhs => rw [hl]
        rw [hl] at hpnot ⊢
        simp only [List.map_append, List.map_cons, List.filter_append,
          List.filter_cons]
        rw [if_neg (by simpa using hpnot)]
        exact List.Sublist.append (List.filter_sublist _) (List.filter_sublist _)
    | delete cid p ts =>
      have hsub : List.Sublist
          ((Document.apply doc (Operation.delete cid p ts)).2.characters.map
            (fun e => e.position))
          (doc.characters.map (fun e => e.position)) := by
        simp only [Document.apply]
        split <;> split
        · rw [← markDeleted_map_pos (p := p) (l := doc.characters)]
          exact List.Sublist.map _ (List.filter_sublist _)
        · rw [markDeleted_map_pos]
        · rw [← markDeleted_map_pos (p := p) (l := doc.characters)]
          exact List.Sublist.map _ (List.filter_sublist _)
        · rw [markDeleted_map_pos]
      exact List.Sublist.trans (List.filter_sublist _) hsub

/-- Witness for the C4 theorem: the empty Document is reachable and
sorted, and an apply on it satisfies the order-preservation sublist. -/
theorem sorted_store_invariant_witness :
    SortedChars (Document.new "d").characters
    ∧ List.Sublist
        (((Document.apply (Document.new "d")
            (Operation.insert "a" 'h' [1] ⟨1, "a"⟩)).2.characters.map
              (fun e => e.position)).filter
          (fun q => decide (q ∈ (Document.new "d").characters.map
            (fun e => e.position))))
        ((Document.new "d").characters.map (fun e => e.position)) :=
  ⟨sorted_store_invariant.1 _ (DocReachable.new "d"),
   sorted_store_invariant.2 _ (Operation.insert "a" 'h' [1] ⟨1, "a"⟩)
     List.Pairwise.nil⟩

/-- C5: apply is atomic — it either returns success (possibly as a
no-op), or returns an error leaving the Document untouched.  In this
engine every apply in fact succeeds, so the error disjunct is never the
one taken. -/
theorem apply_atomic (doc : Document) (op : Operation) :
    (Document.apply doc op).1 = Except.ok ()
    ∨ ((Document.apply doc op).1 ≠ Except.ok ()
        ∧ (Document.apply doc op).2 = doc) :=
  Or.inl (apply_fst_ok doc op)

/-- C6: a Delete whose Position matches no entry is a tolerated no-op —
success, character store and deleted_count unchanged, the Operation still
appended to the log, and the Timestamp merged into the local clock. -/
theorem delete_unknown_position (doc : Document) (cid : String) (p : Position)
    (ts : Timestamp) (h : ∀ e ∈ doc.characters, e.position ≠ p) :
    (Document.apply doc (Operation.delete cid p ts)).1 = Except.ok ()
    ∧ (Document.apply doc (Operation.delete cid p ts)).2.characters =
        doc.characters
    ∧ (Document.apply doc (Operation.delete cid p ts)).2.deleted_count =
        doc.deleted_count
    ∧ (Document.apply doc (Operation.delete cid p ts)).2.operation_log =
        doc.operation_log ++ [Operation.delete cid p ts]
    ∧ (Document.apply doc (Operation.delete cid p ts)).2.timestamp =
        Timestamp.update doc.timestamp ts := by
  have hnm := markDeleted_no_match h
  have h2 : (markDeleted p doc.characters).2 = false := congrArg Prod.snd hnm
  have h1 : (markDeleted p doc.characters).1 = doc.characters :=
    congrArg Prod.fst hnm
  exact ⟨apply_fst_ok doc _, by simp [Document.apply, h2, h1],
    by simp [Document.apply, h2], by simp [Document.apply, h2],
    by simp [Document.apply, h2]⟩

/-- Witness for the C6 theorem: deleting an unknown position on the
empty Document. -/
theorem delete_unknown_position_witness :
    (∀ e ∈ (Document.new "d").characters, e.position ≠ ([1] : Position))
    ∧ (Document.apply (Document.new "d")
        (Operation.delete "c" [1] ⟨1, "c"⟩)).2.characters =
      (Document.new "d").characters
    ∧ (Document.apply (Document.new "d")
        (Operation.delete "c" [1] ⟨1, "c"⟩)).2.operation_log =
      (Document.new "d").operation_log ++ [Operation.delete "c" [1] ⟨1, "c"⟩] :=
  ⟨(by intro e he; cases he),
   (delete_unknown_position (Document.new "d") "c" [1] ⟨1, "c"⟩
     (by intro e he; cases he)).2.1,
   (delete_unknown_position (Document.new "d") "c" [1] ⟨1, "c"⟩
     (by intro e he; cases he)).2.2.2.1⟩

/-- C7: GC transparency — collect_garbage does not change the visible
text; it removes exactly the tombstoned entries (keeping survivors in
order, by filtering), resets deleted_count to 0, and leaves the
operation log untrimmed. -/
theorem gc_transparent (doc : Document) :
    doc.collect_garbage.get_visible_text = doc.get_visible_text
    ∧ doc.collect_garbage.characters =
        doc.characters.filter (fun e => !e.deleted)
    ∧ doc.collect_garbage.deleted_count = 0
    ∧ doc.collect_garbage.operation_log = doc.operation_log := by
  refine ⟨?_, rfl, rfl, rfl⟩
  show visibleChars (doc.characters.filter (fun e => !e.deleted)) =
    visibleChars doc.characters
  rw [visibleChars, visibleChars, List.filter_filter]
  simp

/-- C8: automatic GC trigger — when a threshold n is configured and a
Delete actually marks an entry, raising deleted_count to at least n,
collect_garbage runs before apply returns: the returned Document has
deleted_count 0 and no tombstoned entry in its store. -/
theorem gc_threshold_trigger (doc : Document) (cid : String) (p : Position)
    (ts : Timestamp) (n : Nat) (hth : doc.gc_threshold = some n)
    (hm : (markDeleted p doc.characters).2 = true)
    (hn : n ≤ doc.deleted_count + 1) :
    (Document.apply doc (Operation.delete cid p ts)).2.deleted_count = 0
    ∧ ∀ e ∈ (Document.apply doc (Operation.delete cid p ts)).2.characters,
        e.deleted = false := by
  have hd1 : (Document.apply doc (Operation.delete cid p ts)).2 =
      { doc with
        characters :=
          (markDeleted p doc.characters).1.filter (fun e => !e.deleted)
        deleted_count := 0
        operation_log := doc.operation_log ++ [Operation.delete cid p ts]
        timestamp := Timestamp.update doc.timestamp ts } := by
    simp [Document.apply, hm, hth, hn, Document.collect_garbage]
  rw [hd1]
  refine ⟨rfl, ?_⟩
  intro e he
  simpa using List.of_mem_filter he

/-- Witness for the C8 theorem: one live entry, threshold 1, delete it. -/
theorem gc_threshold_trigger_witness :
    (⟨"t", [⟨'a', [1], false, ⟨0, "t"⟩⟩], [], 0, some 1, ⟨0, "t"⟩⟩ :
        Document).gc_threshold = some 1
    ∧ (markDeleted [1]
        (⟨"t", [⟨'a', [1], false, ⟨0, "t"⟩⟩], [], 0, some 1, ⟨0, "t"⟩⟩ :
          Document).characters).2 = true
    ∧ (1 : Nat) ≤
        (⟨"t", [⟨'a', [1], false, ⟨0, "t"⟩⟩], [], 0, some 1, ⟨0, "t"⟩⟩ :
          Document).deleted_count + 1
    ∧ (Document.apply
        (⟨"t", [⟨'a', [1], false, ⟨0, "t"⟩⟩], [], 0, some 1, ⟨0, "t"⟩⟩ :
          Document)
        (Operation.delete "c" [1] ⟨1, "c"⟩)).2.deleted_count = 0 :=
  ⟨rfl, by decide, by decide,
   (gc_threshold_trigger _ "c" [1] ⟨1, "c"⟩ 1 rfl (by decide) (by decide)).1⟩

/-- C9: the client CRDT integration is a stub — the onmessage handler
leaves the entire client state (in particular the editor document)
unchanged, and the editor update listener sends nothing on local
changes. -/
theorem client_stub_no_effect (st : ClientState) (eventData : String)
    (docChanged readyStateOpen : Bool) :
    onmessage st eventData = st
    ∧ onEditorUpdate st docChanged readyStateOpen = st
    ∧ (onmessage st eventData).editorDoc = st.editorDoc
    ∧ (onEditorUpdate st docChanged readyStateOpen).outbox = st.outbox := by
  refine ⟨rfl, ?_, rfl, ?_⟩ <;> simp [onEditorUpdate]

/-- C10: every close event sets isConnected to false and schedules
exactly one 1000 ms reconnection timer; and in every reachable client
state either a socket attempt is in flight or a reconnection timer is
pending, so the client is never permanently disconnected without a
pending retry. -/
theorem reconnect_on_close :
    (∀ st : ClientState, (onclose st).isConnected = false
      ∧ (onclose st).reconnectDelays = st.reconnectDelays ++ [1000])
    ∧ (∀ st : ClientState, ClientReachable st →
        st.socketAlive = true ∨ st.reconnectDelays ≠ []) := by
  constructor
  · exact fun st => ⟨rfl, rfl⟩
  · intro st h
    induction h with
    | init => exact Or.inl rfl
    | step hr hstep ih =>
      cases hstep with
      | openEv ha => exact Or.inl ha
      | closeEv ha => exact Or.inr (by simp [onclose])
      | fireEv hne => exact Or.inl rfl

/-- Witness for the C10 theorem at the freshly mounted client. -/
theorem reconnect_on_close_witness :
    ((onclose clientInit).isConnected = false
      ∧ (onclose clientInit).reconnectDelays =
          clientInit.reconnectDelays ++ [1000])
    ∧ ClientReachable clientInit
    ∧ (clientInit.socketAlive = true ∨ clientInit.reconnectDelays ≠ []) :=
  ⟨reconnect_on_close.1 clientInit, ClientReachable.init,
   reconnect_on_close.2 clientInit ClientReachable.init⟩

end Crdt
